import Mathlib

/-!
Shallow embedding of `rsa.py`, a textbook RSA implementation, together with
proofs checking the natural-language specification against the code.

Modelling conventions:
* Python arbitrary-precision `int` is embedded as `Int`.  Python's `%` and `//`
  on integers are floor-convention, so they are embedded as `Int.fmod` and
  `Int.fdiv` (which agree with `%`/`/` on `Int` whenever the divisor is
  nonnegative).
* `modexp`'s exponent is embedded as `Nat`: the Python function recurses on
  `y // 2` and never terminates for negative `y`, so its terminating behaviour
  is exactly the `y ≥ 0` fragment.
* `modinv` raises an exception ("Zero divisor") when the gcd is not 1; this is
  embedded as an `Option` result, `none` standing for the raised error.
* The ambient random source (`randint`) is embedded by passing the sequence of
  drawn values explicitly: `randprime` consumes a list of draws, each assumed
  to lie in `[lower, upper]` as `randint` guarantees, and `fermat_test`'s
  default mode (10 random bases) is quantified over all base lists of length
  10 drawn from `[1, N-1]`.
* The two unbounded `while True` loops (`randprime`'s rejection sampling and
  `keygen`'s exponent search) are embedded with explicit fuel / draw lists:
  the loop returns a value iff the embedding returns `some` of it for some
  fuel / draw list, so "whenever the loop returns" becomes a hypothesis
  `... = some r`.
-/

namespace Rsa

/-- Embedding of `modexp(x, y, N)`: repeated squaring, `y = 0` returns 1,
recursing on `y // 2`.  The exponent is a natural number because the Python
code diverges on negative `y`. -/
def modexp (x : Int) (y : Nat) (N : Int) : Int :=
  if y = 0 then
    1
  else
    let z := modexp x (y / 2) N
    if y % 2 = 0 then
      Int.fmod (z ^ 2) N
    else
      Int.fmod (x * z ^ 2) N
decreasing_by exact Nat.div_lt_self (Nat.pos_of_ne_zero (by assumption)) one_lt_two

/-- Embedding of `extended_euclid(a, b)`: returns `(m, n, d)` with
`d = gcd(a, b)` (as computed by the code) and `m*a + n*b = d`; base case
`b = 0` returns `(1, 0, a)`; otherwise recurses on `(b, a % b)` and combines
the coefficients using the quotient `a // b`. -/
def extended_euclid (a b : Int) : Int × Int × Int :=
  if hb : b = 0 then
    (1, 0, a)
  else
    let r := extended_euclid b (Int.fmod a b)
    let m := r.1
    let n := r.2.1
    let d := r.2.2
    (n, m - (Int.fdiv a b) * n, d)
termination_by b.natAbs
decreasing_by
  rcases b with n | n
  · have hn : n ≠ 0 := fun h0 => hb (by simp [h0])
    have hpos : (0 : Int) < (n : Int) := by exact_mod_cast Nat.pos_of_ne_zero hn
    have h1 := Int.fmod_nonneg' a hpos
    have h2 := Int.fmod_lt_of_pos a hpos
    show (Int.fmod a (Int.ofNat n)).natAbs < (Int.ofNat n).natAbs
    simp only [Int.ofNat_eq_coe]
    omega
  · rcases a with m | m
    · rcases m with _ | m
      · show (Int.fmod 0 (Int.negSucc n)).natAbs < (Int.negSucc n).natAbs
        rw [show Int.fmod 0 (Int.negSucc n) = 0 from rfl]
        simp [Int.natAbs_negSucc]
      · show (Int.subNatNat (m % (n + 1)) n).natAbs < (Int.negSucc n).natAbs
        have hx : m % (n + 1) < n + 1 := Nat.mod_lt m (by omega)
        rw [Int.subNatNat_eq_coe]
        simp only [Int.natAbs_negSucc]
        omega
    · show (-Int.ofNat ((m + 1) % (n + 1))).natAbs < (Int.negSucc n).natAbs
      have hx : (m + 1) % (n + 1) < n + 1 := Nat.mod_lt (m + 1) (by omega)
      simp only [Int.ofNat_eq_coe, Int.natAbs_neg, Int.natAbs_negSucc]
      omega

/-- Embedding of `modinv(a, N)`: computes `extended_euclid(a, N)` and raises
(returns `none`) when the computed gcd differs from 1, else returns the
Bézout coefficient reduced mod `N`. -/
def modinv (a N : Int) : Option Int :=
  let r := extended_euclid a N
  if r.2.2 ≠ 1 then
    none
  else
    some (Int.fmod r.1 N)

/-- Embedding of `fermat_test(N, alphas)` in its explicit-witness-list mode:
scans the witnesses in order, returning `false` at the first `a` with
`modexp(a, N-1, N) ≠ 1` and `true` if all pass.  The exponent `N - 1` is
taken in `Nat` via `toNat`; this is faithful for `N ≥ 1` (for `N ≤ 0` the
Python code diverges inside `modexp`). -/
def fermat_test (N : Int) (alphas : List Int) : Bool :=
  match alphas with
  | [] => true
  | a :: rest =>
    if modexp a (N - 1).toNat N ≠ 1 then
      false
    else
      fermat_test N rest

/-- Fixed witness list used by `randprime`. -/
def randprime_alphas : List Int := [2, 3, 5, 7, 11, 13, 17, 19]

/-- Embedding of `randprime(lower, upper)`: the random draws of
`randint(lower, upper)` are passed explicitly as a list (each draw is assumed
to lie in `[lower, upper]`, which `randint` guarantees); the loop returns the
first draw passing `fermat_test` with the fixed witness list, and the
embedding returns `none` if no listed draw passes (the Python loop would keep
drawing). -/
def randprime_run (lower upper : Int) (draws : List Int) : Option Int :=
  match draws with
  | [] => none
  | n :: rest =>
    if fermat_test n randprime_alphas then
      some n
    else
      randprime_run lower upper rest

/-- Embedding of `keygen`'s exponent-search loop: starting from candidate `e`,
try `modinv(e, phi)`; on failure (the raised error) retry with `e + 1`.  The
`fuel` argument makes the unbounded loop total: the loop returns `(e, d)` iff
the embedding returns `some (e, d)` for some fuel. -/
def findE (phi : Int) : Nat → Int → Option (Int × Int)
  | 0, _ => none
  | fuel + 1, e =>
    match modinv e phi with
    | some d => some (e, d)
    | none => findE phi fuel (e + 1)

/-- Embedding of `keygen(nbits)`: draws `p` and `q` via `randprime` on
`[2^(nbits-1), 2^nbits - 1]` (random draws passed explicitly, as in
`randprime_run`), sets `N = p*q`, searches for the public exponent starting
at 3, and returns `((N, e), (N, d))`. -/
def keygen_run (nbits : Nat) (draws1 draws2 : List Int) (fuel : Nat) :
    Option ((Int × Int) × (Int × Int)) :=
  let lower : Int := 2 ^ (nbits - 1)
  let upper : Int := 2 ^ nbits - 1
  match randprime_run lower upper draws1 with
  | none => none
  | some p =>
    match randprime_run lower upper draws2 with
    | none => none
    | some q =>
      let N := p * q
      match findE ((p - 1) * (q - 1)) fuel 3 with
      | none => none
      | some (e, d) => some ((N, e), (N, d))

/-- Embedding of `encode(public_key, msg) = modexp(msg, e, N)`.  The exponent
component is a natural number (see `modexp`). -/
def encode (public_key : Int × Nat) (msg : Int) : Int :=
  modexp msg public_key.2 public_key.1

/-- Embedding of `decode(private_key, msg) = modexp(msg, d, N)`. -/
def decode (private_key : Int × Nat) (msg : Int) : Int :=
  modexp msg private_key.2 private_key.1

/-! ### Basic facts about `modexp` -/

/-- Unfolding of `modexp` at exponent 0. -/
theorem modexp_exp_zero (x N : Int) : modexp x 0 N = 1 := by
  simp [modexp]

/-- Unfolding of `modexp` at a nonzero even exponent. -/
theorem modexp_even (x : Int) (y : Nat) (N : Int) (h0 : y ≠ 0) (he : y % 2 = 0) :
    modexp x y N = Int.fmod ((modexp x (y / 2) N) ^ 2) N := by
  conv_lhs => rw [modexp]
  simp [h0, he]

/-- Unfolding of `modexp` at an odd exponent. -/
theorem modexp_odd (x : Int) (y : Nat) (N : Int) (h0 : y ≠ 0) (he : y % 2 ≠ 0) :
    modexp x y N = Int.fmod (x * (modexp x (y / 2) N) ^ 2) N := by
  conv_lhs => rw [modexp]
  simp [h0, he]

/-- Reducing the base of an integer power modulo `n` does not change the power
modulo `n`. -/
theorem int_pow_emod (a : Int) (b : Nat) (n : Int) : (a % n) ^ b % n = a ^ b % n := by
  induction b with
  | zero => rfl
  | succ k ih =>
    rw [pow_succ, pow_succ, Int.mul_emod, ih, Int.emod_emod, ← Int.mul_emod]

/-- Functional correctness of `modexp` for modulus greater than 1. -/
theorem modexp_correct (y : Nat) (x N : Int) (hN : 1 < N) : modexp x y N = x ^ y % N := by
  induction y using Nat.strong_induction_on with
  | _ y ih =>
    by_cases h0 : y = 0
    · subst h0
      rw [modexp_exp_zero, pow_zero, Int.emod_eq_of_lt (by omega) (by omega)]
    · have hlt : y / 2 < y := Nat.div_lt_self (Nat.pos_of_ne_zero h0) one_lt_two
      have ihy := ih (y / 2) hlt
      have hNnn : (0 : Int) ≤ N := by omega
      by_cases he : y % 2 = 0
      · rw [modexp_even x y N h0 he, Int.fmod_eq_emod _ hNnn, ihy,
          int_pow_emod, ← pow_mul, Nat.div_mul_cancel (Nat.dvd_of_mod_eq_zero he)]
      · rw [modexp_odd x y N h0 he, Int.fmod_eq_emod _ hNnn, ihy,
          Int.mul_emod, int_pow_emod, ← pow_mul, ← Int.mul_emod]
        have hx : x * x ^ (y / 2 * 2) = x ^ (y / 2 * 2 + 1) := by ring
        have hy2 : y / 2 * 2 + 1 = y := by omega
        rw [hx, hy2]

/-- At modulus 1 and positive exponent, `modexp` returns 0. -/
theorem modexp_mod_one (y : Nat) (x : Int) (hy : 0 < y) : modexp x y 1 = 0 := by
  have h0 : y ≠ 0 := Nat.pos_iff_ne_zero.mp hy
  by_cases he : y % 2 = 0
  · rw [modexp_even x y 1 h0 he, Int.fmod_one]
  · rw [modexp_odd x y 1 h0 he, Int.fmod_one]

/-- C3 (amended): for every integer `x`, every exponent `y ≥ 0` and every
modulus `N ≥ 1`, except the corner `y = 0 ∧ N = 1`, `modexp x y N` equals
`x ^ y mod N`; and for every `x` and `N > 1`, `modexp x 0 N = 1 mod N`.  (The
claim as frozen also asserted the first equation at `y = 0`, `N = 1`, where
the code returns 1 while `x ^ 0 mod 1 = 0`; see the counterexample.) -/
theorem modexp_eq_pow_mod_spec :
    (∀ (x : Int) (y : Nat) (N : Int), 1 ≤ N → 0 < y ∨ 1 < N → modexp x y N = x ^ y % N) ∧
    (∀ x N : Int, 1 < N → modexp x 0 N = 1 % N) := by
  constructor
  · intro x y N h1 h2
    rcases lt_or_eq_of_le h1 with hN | hN1
    · exact modexp_correct y x N hN
    · rcases h2 with hy | hN
      · rw [← hN1, modexp_mod_one y x hy, Int.emod_one]
      · omega
  · intro x N hN
    rw [modexp_exp_zero, Int.emod_eq_of_lt (by omega) (by omega)]

/-- C3 counterexample: at `x = 2`, `y = 0`, `N = 1` the code returns 1 but
`x ^ y mod N = 0`, so the claim as stated (quantifying over all `N ≥ 1`,
including `N = 1`, also at `y = 0`) is false. -/
theorem modexp_modulus_one_counterexample :
    modexp 2 0 1 = 1 ∧ (2 : Int) ^ 0 % 1 = 0 ∧ modexp 2 0 1 ≠ (2 : Int) ^ 0 % 1 := by
  refine ⟨modexp_exp_zero 2 1, by decide, ?_⟩
  rw [modexp_exp_zero]
  decide

/-- Witness for C3: the amended theorem applied at concrete inputs. -/
theorem modexp_eq_pow_mod_spec_witness :
    modexp 2 3 5 = (2 : Int) ^ 3 % 5 ∧ modexp 2 0 5 = 1 % 5 :=
  ⟨modexp_eq_pow_mod_spec.1 2 3 5 (by decide) (Or.inl (by decide)),
   modexp_eq_pow_mod_spec.2 2 5 (by decide)⟩

/-! ### Facts about `extended_euclid` -/

/-- Base case of `extended_euclid`. -/
theorem ee_zero (a : Int) : extended_euclid a 0 = (1, 0, a) := by
  simp [extended_euclid]

/-- Recursive case of `extended_euclid`. -/
theorem ee_rec (a b : Int) (hb : b ≠ 0) :
    extended_euclid a b =
      ((extended_euclid b (Int.fmod a b)).2.1,
       (extended_euclid b (Int.fmod a b)).1
         - (Int.fdiv a b) * (extended_euclid b (Int.fmod a b)).2.1,
       (extended_euclid b (Int.fmod a b)).2.2) := by
  conv_lhs => rw [extended_euclid]
  simp [hb]

/-- Replacing the second argument of `Int.gcd` by a remainder mod the first
leaves the gcd unchanged. -/
theorem gcd_of_emod (a b : Int) : Int.gcd b (a % b) = Int.gcd a b := by
  apply Nat.dvd_antisymm
  · have h1 : (↑(Int.gcd b (a % b)) : Int) ∣ b := Int.gcd_dvd_left
    have h2 : (↑(Int.gcd b (a % b)) : Int) ∣ a % b := Int.gcd_dvd_right
    have ha : (↑(Int.gcd b (a % b)) : Int) ∣ a := by
      calc (↑(Int.gcd b (a % b)) : Int) ∣ a % b + b * (a / b) :=
        dvd_add h2 (h1.mul_right _)
      _ = a := Int.emod_add_ediv a b
    exact Int.natCast_dvd_natCast.mp (Int.dvd_gcd ha h1)
  · have h1 : (↑(Int.gcd a b) : Int) ∣ a := Int.gcd_dvd_left
    have h2 : (↑(Int.gcd a b) : Int) ∣ b := Int.gcd_dvd_right
    have hm : (↑(Int.gcd a b) : Int) ∣ a % b := by
      rw [Int.emod_def]
      exact dvd_sub h1 (h2.mul_right _)
    exact Int.natCast_dvd_natCast.mp (Int.dvd_gcd h2 hm)

/-- The Bézout identity holds for the output of `extended_euclid`, for all
integer inputs. -/
theorem ee_bezout (a b : Int) :
    (extended_euclid a b).1 * a + (extended_euclid a b).2.1 * b
      = (extended_euclid a b).2.2 := by
  induction a, b using extended_euclid.induct with
  | case1 a => rw [ee_zero]; ring
  | case2 a b hb ih =>
    rw [ee_rec a b hb]
    set r := extended_euclid b (Int.fmod a b) with hr
    rw [Int.fmod_def] at ih
    simp only
    linear_combination ih

/-- For nonnegative inputs, the third component of `extended_euclid` is the
gcd. -/
theorem ee_gcd_nonneg (a b : Int) :
    0 ≤ a → 0 ≤ b → (extended_euclid a b).2.2 = Int.gcd a b := by
  induction a, b using extended_euclid.induct with
  | case1 a =>
    intro ha _
    rw [ee_zero, Int.gcd_zero_right]
    exact (Int.natAbs_of_nonneg ha).symm
  | case2 a b hb ih =>
    intro _ hb'
    have hbpos : 0 < b := lt_of_le_of_ne hb' (Ne.symm hb)
    rw [ee_rec a b hb]
    simp only
    rw [ih hb' (Int.fmod_nonneg' a hbpos), Int.fmod_eq_emod a hb']
    exact_mod_cast congrArg (Nat.cast : Nat → Int) (gcd_of_emod a b)

/-- For a positive second argument, the third component of `extended_euclid`
is the gcd, for every first argument (also negative ones). -/
theorem ee_gcd_pos (a b : Int) (hbpos : 0 < b) :
    (extended_euclid a b).2.2 = Int.gcd a b := by
  rw [ee_rec a b (by omega)]
  simp only
  rw [ee_gcd_nonneg b (Int.fmod a b) (by omega) (Int.fmod_nonneg' a hbpos),
    Int.fmod_eq_emod a (by omega)]
  exact_mod_cast congrArg (Nat.cast : Nat → Int) (gcd_of_emod a b)

/-- C4: for `a, b ≥ 0`, `extended_euclid a b` returns `(m, n, d)` with
`m*a + n*b = d` and `d = gcd a b`; the base case `b = 0` returns `(1, 0, a)`,
and in particular `extended_euclid 0 0 = (1, 0, 0)`. -/
theorem extended_euclid_spec (a b : Int) (ha : 0 ≤ a) (hb : 0 ≤ b) :
    (extended_euclid a b).1 * a + (extended_euclid a b).2.1 * b
        = (extended_euclid a b).2.2 ∧
      (extended_euclid a b).2.2 = Int.gcd a b ∧
      extended_euclid a 0 = (1, 0, a) ∧
      extended_euclid 0 0 = (1, 0, 0) :=
  ⟨ee_bezout a b, ee_gcd_nonneg a b ha hb, ee_zero a, ee_zero 0⟩

/-- Witness for C4: the theorem applied at `a = 15`, `b = 7`. -/
theorem extended_euclid_spec_witness :
    (extended_euclid 15 7).1 * 15 + (extended_euclid 15 7).2.1 * 7
        = (extended_euclid 15 7).2.2 ∧
      (extended_euclid 15 7).2.2 = Int.gcd 15 7 ∧
      extended_euclid (15 : Int) 0 = (1, 0, 15) ∧
      extended_euclid (0 : Int) 0 = (1, 0, 0) :=
  extended_euclid_spec 15 7 (by decide) (by decide)

/-! ### Facts about `modinv` -/

/-- When the gcd computed by `extended_euclid` is 1, `modinv` returns the
Bézout coefficient reduced into `[0, N)`. -/
theorem modinv_eq_some (a N : Int) (hd : (extended_euclid a N).2.2 = 1) :
    modinv a N = some (Int.fmod (extended_euclid a N).1 N) := by
  simp [modinv, hd]

/-- For `N ≥ 1`, `modinv` raises exactly when the gcd is not 1. -/
theorem modinv_none_iff (a N : Int) (hN : 1 ≤ N) :
    modinv a N = none ↔ Int.gcd a N ≠ 1 := by
  simp only [modinv]
  rw [ee_gcd_pos a N (by omega)]
  by_cases h : Int.gcd a N = 1
  · simp [h]
  · have h' : ((Int.gcd a N : Int)) ≠ 1 := by exact_mod_cast h
    simp [h, h']

/-- Whenever `modinv` returns a value `x` (for `N ≥ 1`), `x` lies in `[0, N)`
and satisfies `a * x ≡ 1 (mod N)`. -/
theorem modinv_some_spec (a N x : Int) (hN : 1 ≤ N) (h : modinv a N = some x) :
    0 ≤ x ∧ x < N ∧ a * x % N = 1 % N := by
  have hd : (extended_euclid a N).2.2 = 1 := by
    by_contra hne
    simp [modinv, hne] at h
  rw [modinv_eq_some a N hd] at h
  obtain rfl := (Option.some.inj h).symm
  refine ⟨Int.fmod_nonneg' _ (by omega), Int.fmod_lt_of_pos _ (by omega), ?_⟩
  have hbez := ee_bezout a N
  rw [hd] at hbez
  rw [Int.fmod_eq_emod _ (by omega)]
  calc a * ((extended_euclid a N).1 % N) % N
      = a * (extended_euclid a N).1 % N := by
        rw [Int.mul_emod, Int.emod_emod, ← Int.mul_emod]
    _ = (1 + N * (-(extended_euclid a N).2.1)) % N := by
        congr 1
        linear_combination hbez
    _ = 1 % N := Int.add_mul_emod_self_left 1 N _

/-- C6: for `N ≥ 1`, `modinv a N` raises (returns `none`) exactly when
`gcd a N ≠ 1`, and returns normally otherwise; in particular `modinv 2 4`
raises. -/
theorem modinv_fails_iff_gcd_ne_one (a N : Int) (hN : 1 ≤ N) :
    (modinv a N = none ↔ Int.gcd a N ≠ 1) ∧ modinv 2 4 = none := by
  refine ⟨modinv_none_iff a N hN, ?_⟩
  simp [modinv, extended_euclid, Int.fmod_eq_emod, Int.fdiv_eq_ediv]

/-- C5 (amended): for `N ≥ 2` and `gcd a N = 1`, `modinv a N` returns a value
`x` with `0 ≤ x < N` and `a * x mod N = 1`.  (The claim as frozen also
covered `N = 1`, where the returned `x = 0` satisfies `a * x mod 1 = 0 ≠ 1`;
see the counterexample.) -/
theorem modinv_spec (a N : Int) (hN : 2 ≤ N) (hg : Int.gcd a N = 1) :
    ∃ x, modinv a N = some x ∧ 0 ≤ x ∧ x < N ∧ a * x % N = 1 := by
  have hd : (extended_euclid a N).2.2 = 1 := by
    rw [ee_gcd_pos a N (by omega), hg, Nat.cast_one]
  refine ⟨_, modinv_eq_some a N hd, Int.fmod_nonneg' _ (by omega),
    Int.fmod_lt_of_pos _ (by omega), ?_⟩
  have hbez := ee_bezout a N
  rw [hd] at hbez
  rw [Int.fmod_eq_emod _ (by omega)]
  calc a * ((extended_euclid a N).1 % N) % N
      = a * (extended_euclid a N).1 % N := by
        rw [Int.mul_emod, Int.emod_emod, ← Int.mul_emod]
    _ = (1 + N * (-(extended_euclid a N).2.1)) % N := by
        congr 1
        linear_combination hbez
    _ = 1 % N := Int.add_mul_emod_self_left 1 N _
    _ = 1 := Int.emod_eq_of_lt (by omega) (by omega)

/-- C5 counterexample: at `N = 1` (allowed by the claim, which assumed only
`N ≥ 1`) with `a = 1`, `gcd a N = 1` and `modinv` returns 0, but
`a * 0 mod 1 = 0 ≠ 1`, so no returned value can satisfy the claimed
equation. -/
theorem modinv_modulus_one_counterexample :
    Int.gcd 1 1 = 1 ∧ modinv 1 1 = some 0 ∧ (1 : Int) * 0 % 1 = 0 ∧
      ¬∃ x, modinv 1 1 = some x ∧ 1 * x % 1 = 1 := by
  refine ⟨by decide, ?_, by decide, ?_⟩
  · simp [modinv, extended_euclid, Int.fmod_eq_emod, Int.fdiv_eq_ediv]
  · rintro ⟨x, hx, hmod⟩
    rw [Int.emod_one] at hmod
    exact absurd hmod (by decide)

/-- Witness for C5: the amended theorem applied at `a = 3`, `N = 7`. -/
theorem modinv_spec_witness :
    ∃ x, modinv 3 7 = some x ∧ 0 ≤ x ∧ x < 7 ∧ 3 * x % 7 = 1 :=
  modinv_spec 3 7 (by decide) (by decide)

/-- Witness for C6: the theorem applied at `a = 2`, `N = 4`. -/
theorem modinv_fails_iff_gcd_ne_one_witness :
    (modinv 2 4 = none ↔ Int.gcd 2 4 ≠ 1) ∧ modinv 2 4 = none :=
  modinv_fails_iff_gcd_ne_one 2 4 (by decide)

/-! ### Facts about `fermat_test` -/

/-- Unfolding of `fermat_test` on a nonempty witness list. -/
theorem fermat_test_cons (N a : Int) (rest : List Int) :
    fermat_test N (a :: rest) =
      if modexp a (N - 1).toNat N ≠ 1 then false else fermat_test N rest := rfl

/-- The scan returns `false` exactly when some listed witness fails the
Fermat check computed by `modexp`. -/
theorem fermat_test_false_iff (N : Int) (as : List Int) :
    fermat_test N as = false ↔ ∃ a ∈ as, modexp a (N - 1).toNat N ≠ 1 := by
  induction as with
  | nil => simp [fermat_test]
  | cons a rest ih =>
    rw [fermat_test_cons]
    by_cases h : modexp a (N - 1).toNat N = 1
    · rw [if_neg (not_not_intro h), ih]
      constructor
      · rintro ⟨b, hb, hb2⟩
        exact ⟨b, List.mem_cons_of_mem a hb, hb2⟩
      · rintro ⟨b, hb, hb2⟩
        rcases List.mem_cons.mp hb with rfl | hb'
        · exact absurd h hb2
        · exact ⟨b, hb', hb2⟩
    · rw [if_pos h]
      exact ⟨fun _ => ⟨a, List.mem_cons_self a rest, h⟩, fun _ => rfl⟩

/-- The scan returns `true` exactly when every listed witness passes the
Fermat check computed by `modexp`. -/
theorem fermat_test_true_iff (N : Int) (as : List Int) :
    fermat_test N as = true ↔ ∀ a ∈ as, modexp a (N - 1).toNat N = 1 := by
  induction as with
  | nil => simp [fermat_test]
  | cons a rest ih =>
    rw [fermat_test_cons]
    by_cases h : modexp a (N - 1).toNat N = 1
    · rw [if_neg (not_not_intro h), ih]
      constructor
      · intro hall b hb
        rcases List.mem_cons.mp hb with rfl | hb'
        · exact h
        · exact hall b hb'
      · intro hall b hb
        exact hall b (List.mem_cons_of_mem a hb)
    · rw [if_pos h]
      constructor
      · intro hfalse
        exact absurd hfalse (by decide)
      · intro hall
        exact absurd (hall a (List.mem_cons_self a rest)) h

/-- Once a failing witness is reached after passing ones, the result is
`false` no matter what witnesses follow. -/
theorem fermat_test_short_circuit (N : Int) (pre : List Int) (a : Int)
    (post : List Int) (hpre : ∀ b ∈ pre, modexp b (N - 1).toNat N = 1)
    (ha : modexp a (N - 1).toNat N ≠ 1) :
    fermat_test N (pre ++ a :: post) = false := by
  induction pre with
  | nil =>
    rw [List.nil_append, fermat_test_cons, if_pos ha]
  | cons b rest ih =>
    have hb : modexp b (N - 1).toNat N = 1 := hpre b (List.mem_cons_self b rest)
    have hrest : ∀ c ∈ rest, modexp c (N - 1).toNat N = 1 := fun c hc =>
      hpre c (List.mem_cons_of_mem b hc)
    rw [List.cons_append, fermat_test_cons, if_neg (not_not_intro hb)]
    exact ih hrest

/-- C7: for `N ≥ 1` (where the embedding is faithful) and an explicit
witness collection, `fermat_test` returns `false` iff some witness `a` has
`modexp a (N-1) N ≠ 1`; it returns `true` iff all witnesses pass; and after
a passing prefix it returns `false` at the first failing witness regardless
of the witnesses that follow (short-circuit). -/
theorem fermat_test_spec (N : Int) (hN : 1 ≤ N) :
    (∀ as : List Int,
        (fermat_test N as = false ↔ ∃ a ∈ as, modexp a (N - 1).toNat N ≠ 1)) ∧
      (∀ as : List Int,
        (fermat_test N as = true ↔ ∀ a ∈ as, modexp a (N - 1).toNat N = 1)) ∧
      (∀ (pre : List Int) (a : Int) (post1 post2 : List Int),
        (∀ b ∈ pre, modexp b (N - 1).toNat N = 1) →
        modexp a (N - 1).toNat N ≠ 1 →
        fermat_test N (pre ++ a :: post1) = false ∧
          fermat_test N (pre ++ a :: post2) = false) :=
  ⟨fun as => fermat_test_false_iff N as,
   fun as => fermat_test_true_iff N as,
   fun pre a post1 post2 hpre ha =>
     ⟨fermat_test_short_circuit N pre a post1 hpre ha,
      fermat_test_short_circuit N pre a post2 hpre ha⟩⟩

/-- Witness for C7: the theorem applied at `N = 6` with witness list `[5]`
and a short-circuit instance. -/
theorem fermat_test_spec_witness :
    (fermat_test 6 [5] = false ↔ ∃ a ∈ [(5 : Int)], modexp a ((6 : Int) - 1).toNat 6 ≠ 1) ∧
      (fermat_test 6 ([1] ++ 5 :: [99]) = false ∧ fermat_test 6 ([1] ++ 5 :: []) = false) :=
  ⟨(fermat_test_spec 6 (by decide)).1 [5],
   (fermat_test_spec 6 (by decide)).2.2 [1] 5 [99] []
     (by
       intro b hb
       simp only [List.mem_singleton] at hb
       subst hb
       rw [show ((6 : Int) - 1).toNat = 5 from rfl, modexp_correct 5 1 6 (by norm_num)]
       decide)
     (by
       rw [show ((6 : Int) - 1).toNat = 5 from rfl, modexp_correct 5 5 6 (by norm_num)]
       decide)⟩

/-- C10: with an explicit empty witness collection, `fermat_test` returns
`true` for every `N ≥ 2`, prime or composite: the witness loop is skipped
vacuously and no emptiness check is performed. -/
theorem fermat_test_empty_witnesses (N : Int) (hN : 2 ≤ N) :
    fermat_test N [] = true := rfl

/-- Witness for C10: the theorem applied at the composite `N = 4`. -/
theorem fermat_test_empty_witnesses_witness : fermat_test 4 [] = true :=
  fermat_test_empty_witnesses 4 (by decide)

/-! ### `fermat_test` on 61 and 62 -/

/-- Finite check: every base in `[1, 60]` passes the Fermat check mod the
prime 61. -/
theorem pow60_mod61 : ∀ n : Nat, n < 61 → 1 ≤ n → n ^ 60 % 61 = 1 := by decide

/-- Finite check: every base in `[2, 61]` fails the Fermat check mod 62;
only the base 1 passes. -/
theorem pow61_mod62 : ∀ n : Nat, n < 62 → 2 ≤ n → n ^ 61 % 62 ≠ 1 := by decide

/-- Every witness in `[1, 60]` passes the `modexp` Fermat check for 61. -/
theorem modexp_base_61 (a : Int) (h1 : 1 ≤ a) (h2 : a ≤ 60) : modexp a 60 61 = 1 := by
  rw [modexp_correct 60 a 61 (by norm_num),
    ← Int.toNat_of_nonneg (show (0 : Int) ≤ a by omega)]
  exact_mod_cast pow60_mod61 a.toNat (by omega) (by omega)

/-- Every witness in `[2, 61]` fails the `modexp` Fermat check for 62. -/
theorem modexp_base_62 (a : Int) (h1 : 2 ≤ a) (h2 : a ≤ 61) : modexp a 61 62 ≠ 1 := by
  rw [modexp_correct 61 a 62 (by norm_num),
    ← Int.toNat_of_nonneg (show (0 : Int) ≤ a by omega)]
  intro hcontra
  exact pow61_mod62 a.toNat (by omega) (by omega) (by exact_mod_cast hcontra)

/-- C9 (amended): with ten random bases drawn from `[1, N-1]`,
`fermat_test 61` returns `true` for every possible draw sequence, and
`fermat_test 62` returns `false` for every draw sequence containing at least
one base different from 1.  (The claim as frozen asserted `false` for every
draw sequence; the all-ones sequence is a valid draw on which `fermat_test 62`
returns `true` — see the counterexample.) -/
theorem fermat_test_61_62_spec :
    (∀ as : List Int, (∀ a ∈ as, 1 ≤ a ∧ a ≤ 60) → as.length = 10 →
        fermat_test 61 as = true) ∧
      (∀ as : List Int, (∀ a ∈ as, 1 ≤ a ∧ a ≤ 61) → as.length = 10 →
        (∃ a ∈ as, a ≠ 1) → fermat_test 62 as = false) := by
  constructor
  · intro as h _
    rw [fermat_test_true_iff]
    intro a ha
    obtain ⟨h1, h2⟩ := h a ha
    rw [show ((61 : Int) - 1).toNat = 60 from rfl]
    exact modexp_base_61 a h1 h2
  · rintro as h _ ⟨a, ha, hne⟩
    rw [fermat_test_false_iff]
    refine ⟨a, ha, ?_⟩
    obtain ⟨h1, h2⟩ := h a ha
    rw [show ((62 : Int) - 1).toNat = 61 from rfl]
    exact modexp_base_62 a (by omega) h2

/-- C9 counterexample: the all-ones draw sequence is ten bases from
`[1, 61]`, yet `fermat_test 62` returns `true` on it, so the claim that
`fermat_test 62` returns `false` for every possible sequence of random
witness draws is false. -/
theorem fermat_test_62_all_ones_counterexample :
    (∀ a ∈ List.replicate 10 (1 : Int), 1 ≤ a ∧ a ≤ 61) ∧
      (List.replicate 10 (1 : Int)).length = 10 ∧
      fermat_test 62 (List.replicate 10 (1 : Int)) = true := by
  refine ⟨?_, by simp, ?_⟩
  · intro a ha
    rw [List.eq_of_mem_replicate ha]
    exact ⟨le_refl 1, by norm_num⟩
  · rw [fermat_test_true_iff]
    intro a ha
    rw [List.eq_of_mem_replicate ha, show ((62 : Int) - 1).toNat = 61 from rfl,
      modexp_correct 61 1 62 (by norm_num)]
    decide

/-- Witness for C9: the amended theorem applied to two concrete length-10
draw sequences. -/
theorem fermat_test_61_62_spec_witness :
    fermat_test 61 [2, 2, 2, 2, 2, 2, 2, 2, 2, 2] = true ∧
      fermat_test 62 [3, 3, 3, 3, 3, 3, 3, 3, 3, 3] = false :=
  ⟨fermat_test_61_62_spec.1 [2, 2, 2, 2, 2, 2, 2, 2, 2, 2] (by decide) (by decide),
   fermat_test_61_62_spec.2 [3, 3, 3, 3, 3, 3, 3, 3, 3, 3] (by decide) (by decide)
     (by decide)⟩

/-! ### Facts about `randprime` -/

/-- Whatever the rejection-sampling loop returns is a draw within the range
that passes `fermat_test` with the fixed witness list. -/
theorem randprime_run_bounds (lower upper : Int) (draws : List Int) (v : Int)
    (hd : ∀ n ∈ draws, lower ≤ n ∧ n ≤ upper)
    (hr : randprime_run lower upper draws = some v) :
    lower ≤ v ∧ v ≤ upper ∧ fermat_test v randprime_alphas = true := by
  induction draws with
  | nil => simp [randprime_run] at hr
  | cons n rest ih =>
    rw [show randprime_run lower upper (n :: rest)
        = if fermat_test n randprime_alphas then some n
          else randprime_run lower upper rest
      from rfl] at hr
    by_cases h : fermat_test n randprime_alphas = true
    · rw [if_pos h] at hr
      obtain rfl := Option.some.inj hr
      exact ⟨(hd n (List.mem_cons_self n rest)).1,
        (hd n (List.mem_cons_self n rest)).2, h⟩
    · rw [if_neg h] at hr
      exact ih (fun m hm => hd m (List.mem_cons_of_mem n hm)) hr

/-- C8: whenever `randprime(lower, upper)` returns — that is, for every
sequence of random draws (each in `[lower, upper]`, as `randint` guarantees)
on which the loop terminates with value `v` — the result satisfies
`lower ≤ v ≤ upper` and passes `fermat_test` with witnesses
`[2,3,5,7,11,13,17,19]`. -/
theorem randprime_spec (lower upper : Int) (draws : List Int) (v : Int)
    (hd : ∀ n ∈ draws, lower ≤ n ∧ n ≤ upper)
    (hr : randprime_run lower upper draws = some v) :
    lower ≤ v ∧ v ≤ upper ∧ fermat_test v [2, 3, 5, 7, 11, 13, 17, 19] = true :=
  randprime_run_bounds lower upper draws v hd hr

/-- Witness for C8: the theorem applied to the draw sequence `[24, 23]` on
`[16, 31]`, where 24 is rejected and 23 accepted. -/
theorem randprime_spec_witness :
    (16 : Int) ≤ 23 ∧ (23 : Int) ≤ 31 ∧
      fermat_test 23 [2, 3, 5, 7, 11, 13, 17, 19] = true :=
  randprime_spec 16 31 [24, 23] 23 (by decide)
    (by simp [randprime_run, randprime_alphas, fermat_test, modexp, Int.fmod_eq_emod])

/-! ### Facts about `keygen` -/

/-- Whenever the exponent-search loop started at `e0` returns `(e, d)`, the
candidate `e` is at least `e0`, its modular inverse computation succeeded
with value `d`, and every earlier candidate was rejected. -/
theorem findE_some_spec (phi : Int) (fuel : Nat) (e0 e d : Int)
    (h : findE phi fuel e0 = some (e, d)) :
    e0 ≤ e ∧ modinv e phi = some d ∧
      ∀ k : Int, e0 ≤ k → k < e → modinv k phi = none := by
  induction fuel generalizing e0 with
  | zero => simp [findE] at h
  | succ n ih =>
    rw [show findE phi (n + 1) e0
        = match modinv e0 phi with
          | some d => some (e0, d)
          | none => findE phi n (e0 + 1)
      from rfl] at h
    cases hm : modinv e0 phi with
    | some d0 =>
      rw [hm] at h
      simp only [Option.some.injEq, Prod.mk.injEq] at h
      obtain ⟨rfl, rfl⟩ := h
      exact ⟨le_refl e0, hm, fun k hk1 hk2 => absurd hk2 (by omega)⟩
    | none =>
      rw [hm] at h
      obtain ⟨h1, h2, h3⟩ := ih (e0 + 1) h
      refine ⟨by omega, h2, ?_⟩
      intro k hk1 hk2
      by_cases hke : k = e0
      · subst hke
        exact hm
      · exact h3 k (by omega) hk2

/-- C2: whenever `keygen(nbits)` returns (for any random draws within the
ranges `randint` guarantees and any amount of exponent-search fuel), the
result is `((p*q, e), (p*q, d))` for the internally drawn `p` and `q`,
with `e·d ≡ 1 (mod (p-1)(q-1))`, the bit length of `N = p*q` in
`[2(nbits-1)+1, 2·nbits]`, and `e` the smallest candidate `≥ 3` whose gcd
with `(p-1)(q-1)` is 1, each earlier candidate having been rejected through
the failure of `modinv`. -/
theorem keygen_spec (nbits : Nat) (hn : 1 ≤ nbits) (draws1 draws2 : List Int)
    (fuel : Nat) (result : (Int × Int) × (Int × Int))
    (hd1 : ∀ n ∈ draws1, (2 : Int) ^ (nbits - 1) ≤ n ∧ n ≤ 2 ^ nbits - 1)
    (hd2 : ∀ n ∈ draws2, (2 : Int) ^ (nbits - 1) ≤ n ∧ n ≤ 2 ^ nbits - 1)
    (h : keygen_run nbits draws1 draws2 fuel = some result) :
    ∃ p q e d : Int,
      randprime_run (2 ^ (nbits - 1)) (2 ^ nbits - 1) draws1 = some p ∧
      randprime_run (2 ^ (nbits - 1)) (2 ^ nbits - 1) draws2 = some q ∧
      result = ((p * q, e), (p * q, d)) ∧
      e * d ≡ 1 [ZMOD (p - 1) * (q - 1)] ∧
      2 * (nbits - 1) + 1 ≤ (p * q).toNat.size ∧
      (p * q).toNat.size ≤ 2 * nbits ∧
      3 ≤ e ∧ Int.gcd e ((p - 1) * (q - 1)) = 1 ∧
      ∀ j : Int, 3 ≤ j → j < e → Int.gcd j ((p - 1) * (q - 1)) ≠ 1 := by
  simp only [keygen_run] at h
  split at h
  · exact Option.noConfusion h
  next p hr1 =>
    split at h
    · exact Option.noConfusion h
    next q hr2 =>
      split at h
      · exact Option.noConfusion h
      next e d hf =>
        obtain rfl := Option.some.inj h
        obtain ⟨hp1, hp2, hpf⟩ := randprime_run_bounds _ _ draws1 p hd1 hr1
        obtain ⟨hq1, hq2, hqf⟩ := randprime_run_bounds _ _ draws2 q hd2 hr2
        have hLpos : (0 : Int) < 2 ^ (nbits - 1) := pow_pos (by norm_num) _
        have hL : (1 : Int) ≤ 2 ^ (nbits - 1) := hLpos
        have hp0 : 1 ≤ p := le_trans hL hp1
        have hq0 : 1 ≤ q := le_trans hL hq1
        obtain ⟨he3, hminv, hmin⟩ := findE_some_spec ((p - 1) * (q - 1)) fuel 3 e d hf
        have hphi0 : 0 ≤ (p - 1) * (q - 1) := mul_nonneg (by omega) (by omega)
        have hphi : 1 ≤ (p - 1) * (q - 1) := by
          rcases lt_or_eq_of_le hphi0 with h' | h'
          · omega
          · exfalso
            rw [← h'] at hminv
            rw [show modinv e 0 = none by
              simp [modinv, ee_zero]
              omega] at hminv
            exact Option.noConfusion hminv
        obtain ⟨hdnn, hdlt, hmod⟩ := modinv_some_spec e ((p - 1) * (q - 1)) d hphi hminv
        have hgcd : Int.gcd e ((p - 1) * (q - 1)) = 1 := by
          by_contra hg
          rw [(modinv_none_iff e ((p - 1) * (q - 1)) hphi).mpr hg] at hminv
          exact Option.noConfusion hminv
        refine ⟨p, q, e, d, hr1, hr2, rfl, hmod, ?_, ?_, he3, hgcd, ?_⟩
        · have hsq : (2 : Int) ^ (nbits - 1) * 2 ^ (nbits - 1) ≤ p * q :=
            mul_le_mul hp1 hq1 (le_of_lt hLpos) (by omega)
          rw [← pow_add] at hsq
          have hcast : ((2 ^ ((nbits - 1) + (nbits - 1)) : Nat) : Int) ≤ p * q := by
            push_cast
            exact hsq
          have hnat : 2 ^ (2 * (nbits - 1)) ≤ (p * q).toNat := by
            rw [two_mul]
            omega
          exact Nat.lt_size.mpr hnat
        · have hX : (1 : Int) ≤ 2 ^ nbits := by
            have := pow_pos (show (0 : Int) < 2 by norm_num) nbits
            omega
          have hub : p * q ≤ (2 ^ nbits - 1) * (2 ^ nbits - 1) :=
            mul_le_mul hp2 hq2 (by omega) (by omega)
          have hlt : ((2 : Int) ^ nbits - 1) * (2 ^ nbits - 1) < 2 ^ (2 * nbits) := by
            rw [mul_comm 2 nbits, pow_mul]
            nlinarith [hX]
          have hpq1 : (1 : Int) ≤ p * q := by nlinarith [hp0, hq0]
          have hcast : p * q < ((2 ^ (2 * nbits) : Nat) : Int) := by
            rw [Nat.cast_pow, Nat.cast_ofNat]
            omega
          have hnat : (p * q).toNat < 2 ^ (2 * nbits) := by omega
          exact Nat.size_le.mpr hnat
        · intro j hj1 hj2 hg1
          have hj := hmin j hj1 hj2
          exact (modinv_none_iff j ((p - 1) * (q - 1)) hphi).mp hj hg1

/-- Witness for C2: the theorem applied to `keygen(5)` with draws 23 and 29,
which yields the key pair `((667, 3), (667, 411))`. -/
theorem keygen_spec_witness :
    ∃ p q e d : Int,
      randprime_run (2 ^ (5 - 1)) (2 ^ 5 - 1) [23] = some p ∧
      randprime_run (2 ^ (5 - 1)) (2 ^ 5 - 1) [29] = some q ∧
      (((667, 3), (667, 411)) : (Int × Int) × (Int × Int)) = ((p * q, e), (p * q, d)) ∧
      e * d ≡ 1 [ZMOD (p - 1) * (q - 1)] ∧
      2 * (5 - 1) + 1 ≤ (p * q).toNat.size ∧
      (p * q).toNat.size ≤ 2 * 5 ∧
      3 ≤ e ∧ Int.gcd e ((p - 1) * (q - 1)) = 1 ∧
      ∀ j : Int, 3 ≤ j → j < e → Int.gcd j ((p - 1) * (q - 1)) ≠ 1 :=
  keygen_spec 5 (by decide) [23] [29] 1 ((667, 3), (667, 411)) (by decide) (by decide)
    (by simp [keygen_run, randprime_run, randprime_alphas, fermat_test, modexp,
      modinv, extended_euclid, findE, Int.fmod_eq_emod, Int.fdiv_eq_ediv])

/-! ### The RSA round trip -/

/-- Fermat consequence: for a prime `p` and exponent `k ≥ 1` with
`k ≡ 1 (mod p-1)`, raising to the `k` fixes every residue mod `p`. -/
theorem prime_pow_congr (p k m : Nat) (hp : p.Prime)
    (hk : k ≡ 1 [MOD p - 1]) (hk1 : 1 ≤ k) : m ^ k ≡ m [MOD p] := by
  by_cases hdvd : p ∣ m
  · have h1 : m ^ k ≡ 0 [MOD p] :=
      Nat.modEq_zero_iff_dvd.mpr (dvd_pow hdvd (by omega))
    have h2 : m ≡ 0 [MOD p] := Nat.modEq_zero_iff_dvd.mpr hdvd
    exact h1.trans h2.symm
  · have hco : Nat.Coprime m p := (hp.coprime_iff_not_dvd.mpr hdvd).symm
    have heuler : m ^ (p - 1) ≡ 1 [MOD p] := by
      have h := Nat.ModEq.pow_totient hco
      rwa [Nat.totient_prime hp] at h
    have hdvd1 : (p - 1) ∣ (k - 1) := (Nat.modEq_iff_dvd' hk1).mp hk.symm
    obtain ⟨t, ht⟩ := hdvd1
    have hkeq : k = (p - 1) * t + 1 := by omega
    calc m ^ k = (m ^ (p - 1)) ^ t * m := by rw [hkeq, pow_add, pow_mul, pow_one]
      _ ≡ 1 ^ t * m [MOD p] := (heuler.pow t).mul_right m
      _ = m := by rw [one_pow, one_mul]

/-- Core of the RSA round trip: for distinct primes `p`, `q` and exponents
with `e·d ≡ 1 (mod (p-1)(q-1))`, raising to the `e·d` fixes every residue
mod `p·q` (Fermat's little theorem on each prime factor, combined by the
Chinese remainder theorem; distinctness of the primes is essential for the
non-coprime messages). -/
theorem rsa_core (p q e d m : Nat) (hp : p.Prime) (hq : q.Prime) (hne : p ≠ q)
    (hed : e * d ≡ 1 [MOD (p - 1) * (q - 1)]) :
    m ^ (e * d) ≡ m [MOD p * q] := by
  have hp2 := hp.two_le
  have hq2 := hq.two_le
  have hed1 : 1 ≤ e * d := by
    by_contra h0
    have hzero : e * d = 0 := by omega
    rw [hzero] at hed
    have hdvd1 : (p - 1) * (q - 1) ∣ 1 :=
      (Nat.modEq_iff_dvd' (by omega)).mp hed
    have h1 : (p - 1) * (q - 1) = 1 := Nat.dvd_one.mp hdvd1
    have hp1 : p - 1 = 1 := Nat.dvd_one.mp ⟨q - 1, h1.symm⟩
    have h1' : (q - 1) * (p - 1) = 1 := by rw [mul_comm]; exact h1
    have hq1 : q - 1 = 1 := Nat.dvd_one.mp ⟨p - 1, h1'.symm⟩
    exact hne (by omega)
  have hmodp : m ^ (e * d) ≡ m [MOD p] :=
    prime_pow_congr p (e * d) m hp
      (hed.of_dvd (dvd_mul_right (p - 1) (q - 1))) hed1
  have hmodq : m ^ (e * d) ≡ m [MOD q] :=
    prime_pow_congr q (e * d) m hq
      (hed.of_dvd (dvd_mul_left (q - 1) (p - 1))) hed1
  have hcop : Nat.Coprime p q := (Nat.coprime_primes hp hq).mpr hne
  exact (Nat.modEq_and_modEq_iff_modEq_mul hcop).mp ⟨hmodp, hmodq⟩

/-- The round trip through `encode` and `decode` for a key pair built from
two distinct primes. -/
theorem rsa_roundtrip (p q e d m : Nat) (hp : p.Prime) (hq : q.Prime)
    (hne : p ≠ q) (hed : e * d ≡ 1 [MOD (p - 1) * (q - 1)]) (hm : m < p * q) :
    decode (((p * q : Nat) : Int), d) (encode (((p * q : Nat) : Int), e) (m : Int))
      = (m : Int) := by
  have h4 : 4 ≤ p * q := Nat.mul_le_mul hp.two_le hq.two_le
  have hN : (1 : Int) < ((p * q : Nat) : Int) := by exact_mod_cast (by omega : 1 < p * q)
  simp only [encode, decode]
  rw [modexp_correct e (m : Int) _ hN, modexp_correct d _ _ hN,
    int_pow_emod, ← pow_mul]
  have hcong := rsa_core p q e d m hp hq hne hed
  calc ((m : Int)) ^ (e * d) % ((p * q : Nat) : Int)
      = ((m ^ (e * d) : Nat) : Int) % ((p * q : Nat) : Int) := by push_cast; rfl
    _ = ((m ^ (e * d) % (p * q) : Nat) : Int) := (Int.ofNat_emod _ _).symm
    _ = ((m % (p * q) : Nat) : Int) := by rw [hcong]
    _ = (m : Int) := by rw [Nat.mod_eq_of_lt hm]

set_option maxRecDepth 8000 in
/-- C1 (amended): for a correctly constructed key pair whose two secret
primes are distinct, the round trip holds for every message `0 ≤ m < N`;
and the concrete pair from the doctests encodes 1337 to 4272253717090457 and
decodes it back.  (The claim as frozen did not require the primes to be
distinct; `keygen` can draw `p = q`, and then the round trip fails — see the
counterexample.) -/
theorem rsa_roundtrip_spec :
    (∀ p q e d m : Nat, p.Prime → q.Prime → p ≠ q →
        e * d ≡ 1 [MOD (p - 1) * (q - 1)] → m < p * q →
        decode (((p * q : Nat) : Int), d)
          (encode (((p * q : Nat) : Int), e) (m : Int)) = (m : Int)) ∧
      encode (12087136410462725761, 5) 1337 = 4272253717090457 ∧
      decode (12087136410462725761, 4834854561401929901) 4272253717090457 = 1337 := by
  refine ⟨fun p q e d m hp hq hne hed hm => rsa_roundtrip p q e d m hp hq hne hed hm,
    ?_, ?_⟩
  · simp [encode, modexp, Int.fmod_eq_emod]
  · simp [decode, modexp, Int.fmod_eq_emod]

/-- C1 counterexample: with the legal draws 23 and 23, `keygen(5)` builds the
key pair `((529, 3), (529, 323))` from the equal primes `p = q = 23`
(`3·323 ≡ 1 (mod 484)`), yet the message 23 < 529 encodes to 0 and decodes
to 0, not 23: the round trip fails for a correctly constructed key pair. -/
theorem rsa_roundtrip_equal_primes_counterexample :
    Nat.Prime 23 ∧ (3 * 323) % ((23 - 1) * (23 - 1)) = 1 % ((23 - 1) * (23 - 1)) ∧
      (∀ n ∈ [(23 : Int)], (2 : Int) ^ (5 - 1) ≤ n ∧ n ≤ 2 ^ 5 - 1) ∧
      keygen_run 5 [23] [23] 1 = some ((529, 3), (529, 323)) ∧
      (23 : Int) < 529 ∧
      decode ((529 : Int), 323) (encode ((529 : Int), 3) 23) = 0 ∧
      decode ((529 : Int), 323) (encode ((529 : Int), 3) 23) ≠ 23 := by
  refine ⟨by norm_num, by decide, by decide, ?_, by decide, ?_, ?_⟩
  · simp [keygen_run, randprime_run, randprime_alphas, fermat_test, modexp,
      modinv, extended_euclid, findE, Int.fmod_eq_emod, Int.fdiv_eq_ediv]
  · simp [encode, decode, modexp, Int.fmod_eq_emod]
  · simp [encode, decode, modexp, Int.fmod_eq_emod]

/-- Witness for C1: the amended round-trip theorem applied to the key pair
`((667, 3), (667, 411))` built from the distinct primes 23 and 29, at
message 5. -/
theorem rsa_roundtrip_spec_witness :
    decode (((23 * 29 : Nat) : Int), 411)
      (encode (((23 * 29 : Nat) : Int), 3) ((5 : Nat) : Int)) = ((5 : Nat) : Int) :=
  rsa_roundtrip_spec.1 23 29 3 411 5 (by norm_num) (by norm_num) (by decide)
    (by decide) (by decide)

end Rsa
